import Mathlib

/-!
Shallow embedding of `src/main.py`.

The program is a letter-substitution puzzle: an alphabet codec (A=1 .. Z=26),
two forward transforms over suffix ("tail") sums — interpretation A applies
`((tail + 6 - 1) % 26) + 1` directly, interpretation B first reduces the tail
sum to its decimal digit sum — a closed-form inverter for interpretation A and
a backtracking enumerator of all preimages for interpretation B.

Python integers are modelled as `Int` (Python's `%` on a positive modulus is
`Int.emod`), sequences as `List Int`, words as `List Char`, and fallible
dictionary lookups as `Option`.  The mutable accumulator / solution list of
the interpretation-B search is modelled by explicit state passing
(`backtrackB_st`), with a pure `flatMap` shadow (`backtrackB`) proved equal
to it.
-/

/-- The alphabet `"ABCDEFGHIJKLMNOPQRSTUVWXYZ"` (main.py line 16). -/
def alphabet : List Char := "ABCDEFGHIJKLMNOPQRSTUVWXYZ".toList

/-- Positional dictionary lookup: `lookupIdx l c i = some (i + k + 1)` when `c`
first occurs at offset `k` of `l`.  This models the dict
`val = {c: i+1 for i, c in enumerate(alphabet)}` (main.py line 17). -/
def lookupIdx : List Char → Char → Int → Option Int
  | [], _, _ => none
  | a :: as, c, i => if a = c then some (i + 1) else lookupIdx as c (i + 1)

/-- Value of a letter (`val[c]`), A=1 .. Z=26; `none` models `KeyError`. -/
def val (c : Char) : Option Int := lookupIdx alphabet c 0

/-- Letter of a value (`letter[v]`), defined exactly for `v ∈ [1,26]`
(main.py line 18); `none` models `KeyError`. -/
def letter (v : Int) : Option Char :=
  if 1 ≤ v ∧ v ≤ 26 then some (alphabet.getD (v - 1).toNat 'A') else none

/-- The per-position output of interpretation A:
`y = ((tail + 6 - 1) % 26) + 1` (main.py line 27). -/
def fA (tail : Int) : Int := ((tail + 6 - 1) % 26) + 1

/-- The shared loop shape of both forward maps (main.py lines 22-29 and
95-101): walk the reversed value list keeping a running `tail` sum, append
`h tail` to `out` at each step, and reverse `out` at the end. -/
def tailMapGo (h : Int → Int) : List Int → Int → List Int → List Int
  | [], _, out => out.reverse
  | x :: xs, tail, out => tailMapGo h xs (tail + x) (out ++ [h (tail + x)])

/-- Forward transform of interpretation A,
`map_interpretation_A_tail_plus6_mod26` (main.py lines 20-29). -/
def map_interpretation_A_tail_plus6_mod26 (values : List Int) : List Int :=
  tailMapGo fA values.reverse 0 []

/-- Digit-sum worker with a fuel argument; the callers always pass enough fuel
(a number never has more decimal digits than its own value). -/
def digitSumFuel : Nat → Nat → Nat
  | 0, _ => 0
  | fuel + 1, n => if n = 0 then 0 else digitSumFuel fuel (n / 10) + n % 10

/-- Sum of the decimal digits of `n`, `digit_sum(n)` (main.py lines 91-92;
the source renders `n` in base 10 via `str` and sums the digits — it is only
ever applied to positive tail sums). -/
def digit_sum (n : Int) : Int := (digitSumFuel n.toNat n.toNat : Nat)

/-- The per-position output of interpretation B:
`y = ((digit_sum(tail) + 6 - 1) % 26) + 1` (main.py lines 99 and 111 and 124). -/
def fB (tail : Int) : Int := ((digit_sum tail + 6 - 1) % 26) + 1

/-- Forward transform of interpretation B, `map_interpretation_B`
(main.py lines 94-101). -/
def map_interpretation_B (values : List Int) : List Int :=
  tailMapGo fB values.reverse 0 []

/-- Python `range(a, b, step)` for positive `step`, as a list of `Int`:
the `k`-th element is `a + step * k`, and there are `max 0 ⌈(b - a)/step⌉`
elements. -/
def intRangeStep (a b step : Int) : List Int :=
  (List.range ((b - a + step - 1) / step).toNat).map (fun k : Nat => a + step * (k : Int))

/-- The backward loop of `reconstruct_interpretation_A` (main.py lines 48-75).
`ys` lists the remaining targets right to left (`[y_{n-2}, …, y_0]`), `Tnext`
is the tail sum fixed at the position just to the right, and `x` accumulates
the reconstructed values of the positions already processed (left to right).
Each step mirrors the loop body: compute the residue, scan
`range(start, high+1, 26)` for candidates, demand exactly one, bound-check
`xi = Ti - Tnext`, and recurse leftwards. -/
def reconA_go : List Int → Int → List Int → Option (List Int)
  | [], _, x => some x
  | yi :: ys, Tnext, x =>
      let residue := (yi - 6) % 26
      let low := Tnext + 1
      let high := Tnext + 26
      let r0 := if residue = 0 then 26 else residue
      let start := low + ((r0 - low) % 26)
      let candidates := intRangeStep start (high + 1) 26
      if candidates.length ≠ 1 then none
      else
        let Ti := candidates.headD 0
        let xi := Ti - Tnext
        if ¬ (1 ≤ xi ∧ xi ≤ 26) then none
        else reconA_go ys Ti (xi :: x)

/-- Closed-form inverter `reconstruct_interpretation_A` (main.py lines 31-77).
The last position is
solved first (`Tn = (yn - 6) % 26`, normalised to `26` when the residue is `0`,
then range-checked), after which the loop runs from position `n-2` down to `0`.
Python raises `IndexError` on an empty target (`target_vals[-1]`); the claims
about this function therefore carry a nonempty-target hypothesis, and the
embedding totalises the last-element read with `getLast?.getD 0`. -/
def reconstruct_interpretation_A (target_vals : List Int) : Option (List Int) :=
  let yn := target_vals.getLast?.getD 0
  let residue := (yn - 6) % 26
  let Tn := if residue ≠ 0 then residue else 26
  if ¬ (1 ≤ Tn ∧ Tn ≤ 26) then none
  else reconA_go target_vals.dropLast.reverse Tn [Tn]

/-- Word of a value sequence, `to_word` (main.py lines 79-80); the
generator raises `KeyError` at the first out-of-range value, modelled by the
short-circuiting `Option` bind. -/
def to_word : List Int → Option (List Char)
  | [] => some []
  | v :: vs => (letter v).bind fun c => (to_word vs).map fun cs => c :: cs

/-- Values of a word, `from_word` (main.py lines 82-83); the comprehension
raises `KeyError` at the first unrecognised character, modelled by the
short-circuiting `Option` bind. -/
def from_word : List Char → Option (List Int)
  | [] => some []
  | c :: cs => (val c).bind fun v => (from_word cs).map fun vs => v :: vs

/-- The inner `backtrack` of `reconstruct_interpretation_B_all`
(main.py lines 113-129), with the mutations made explicit: the state is the
pair (accumulator `acc`, solution list `sols`); `acc_letters.append(xi)`
becomes `acc ++ [xi]`, `acc_letters.pop()` becomes `dropLast` on the
accumulator returned by the recursive call, and `sols.append(...)` appends to
the second component.  The position `i` (which runs down to `-1`) is carried
as the number `k = i + 1` of positions still to fill, so `i < 0` is `k = 0`
and `target_vals[i]` is `target.getD k 0` in the successor case. -/
def backtrackB_st (target : List Int) : Nat → Int → List Int → List (List Int) →
    List Int × List (List Int)
  | 0, _, acc, sols => (acc, sols ++ [acc.reverse])
  | k + 1, T_next, acc, sols =>
      (intRangeStep (T_next + 1) (T_next + 26 + 1) 1).foldl
        (fun st Ti =>
          if fB Ti = target.getD k 0 then
            if 1 ≤ Ti - T_next ∧ Ti - T_next ≤ 26 then
              let st2 := backtrackB_st target k Ti (st.1 ++ [Ti - T_next]) st.2
              (st2.1.dropLast, st2.2)
            else st
          else st)
        (acc, sols)

/-- Pure shadow of `backtrackB_st`: the list of solutions contributed by one
call, as a `flatMap` over the candidate tail sums.  `backtrackB_st_eq` proves
it equal to the state-passing form. -/
def backtrackB (target : List Int) : Nat → Int → List Int → List (List Int)
  | 0, _, acc => [acc.reverse]
  | k + 1, T_next, acc =>
      (intRangeStep (T_next + 1) (T_next + 26 + 1) 1).flatMap
        (fun Ti =>
          if fB Ti = target.getD k 0 then
            if 1 ≤ Ti - T_next ∧ Ti - T_next ≤ 26 then
              backtrackB target k Ti (acc ++ [Ti - T_next])
            else []
          else [])

/-- Backtracking search `reconstruct_interpretation_B_all`
(main.py lines 103-134): filter the
feasible last tail sums out of `range(1, 27)`, then run the backtracking
search once per candidate, accumulating into the shared solution list.
Python raises `IndexError` on an empty target (`target_vals[-1]`); the claims
about this function therefore carry a nonempty-target hypothesis. -/
def reconstruct_interpretation_B_all (target : List Int) : List (List Int) :=
  let last_target := target.getLast?.getD 0
  let last_candidates := (intRangeStep 1 (26 + 1) 1).filter (fun t => fB t = last_target)
  last_candidates.foldl
    (fun sols Tn => (backtrackB_st target (target.length - 1) Tn [Tn] sols).2) []

/-! ### Specification-side helpers (proved equal to the embedded loops) -/

/-- Outputs of the forward loop in processing order (right to left), with
running tail sum starting at `t`. -/
def tailCollect (h : Int → Int) : List Int → Int → List Int
  | [], _ => []
  | x :: xs, t => h (t + x) :: tailCollect h xs (t + x)

/-- Structural description of a forward map: position `i` (left to right)
yields `h` of the suffix sum from `i`, offset by a base `b`. -/
def tailOutputs (h : Int → Int) (b : Int) : List Int → List Int
  | [] => []
  | x :: xs => h (x + xs.sum + b) :: tailOutputs h b xs

/-- The condition the interpretation-B search maintains for a partial solution
`v` (positions `0 .. v.length - 1`, left to right) whose tail sums are
anchored at base `b`: every entry is a letter value and every shifted suffix
sum satisfies the interpretation-B constraint for its target. -/
def suffixOK (target : List Int) (b : Int) (v : List Int) : Prop :=
  ∀ j, j < v.length →
    1 ≤ v.getD j 0 ∧ v.getD j 0 ≤ 26 ∧ fB ((v.drop j).sum + b) = target.getD j 0

example : map_interpretation_A_tail_plus6_mod26 [1] = [7] := by decide
example : map_interpretation_A_tail_plus6_mod26 [1, 2] = [9, 8] := by decide
example : reconstruct_interpretation_A [7] = some [1] := by decide
example : reconstruct_interpretation_A [9, 8] = some [1, 2] := by decide
example : map_interpretation_B [1] = [7] := by decide
example : reconstruct_interpretation_B_all [7] = [[1], [10]] := by decide
example : from_word ['A', 'B'] = some [1, 2] := by decide
example : to_word [1, 26] = some ['A', 'Z'] := by decide
example : digit_sum 19 = 10 := by decide

/-! ### Forward-map characterization -/

theorem tailMapGo_eq (h : Int → Int) :
    ∀ (l : List Int) (t : Int) (out : List Int),
      tailMapGo h l t out = (out ++ tailCollect h l t).reverse := by
  intro l
  induction l with
  | nil => intro t out; simp [tailMapGo, tailCollect]
  | cons x xs ih => intro t out; simp [tailMapGo, tailCollect, ih]

theorem tailCollect_append (h : Int → Int) :
    ∀ (u v : List Int) (t : Int),
      tailCollect h (u ++ v) t = tailCollect h u t ++ tailCollect h v (t + u.sum) := by
  intro u
  induction u with
  | nil => intro v t; simp [tailCollect]
  | cons x u' ih => intro v t; simp [tailCollect, ih, add_assoc]

theorem tailCollect_reverse (h : Int → Int) :
    ∀ (l : List Int) (b : Int),
      (tailCollect h l.reverse b).reverse = tailOutputs h b l := by
  intro l
  induction l with
  | nil => intro b; simp [tailCollect, tailOutputs]
  | cons x xs ih =>
      intro b
      rw [List.reverse_cons, tailCollect_append, List.reverse_append]
      have harg : b + xs.reverse.sum + x = x + xs.sum + b := by
        rw [List.sum_reverse]; ring
      simp only [tailCollect, tailOutputs, List.reverse_cons, List.reverse_nil,
        List.nil_append, harg, ih, List.singleton_append]

theorem map_A_eq_tailOutputs (values : List Int) :
    map_interpretation_A_tail_plus6_mod26 values = tailOutputs fA 0 values := by
  unfold map_interpretation_A_tail_plus6_mod26
  rw [tailMapGo_eq, List.nil_append, tailCollect_reverse]

theorem map_B_eq_tailOutputs (values : List Int) :
    map_interpretation_B values = tailOutputs fB 0 values := by
  unfold map_interpretation_B
  rw [tailMapGo_eq, List.nil_append, tailCollect_reverse]

theorem tailOutputs_length (h : Int → Int) (b : Int) :
    ∀ l : List Int, (tailOutputs h b l).length = l.length := by
  intro l
  induction l with
  | nil => rfl
  | cons x xs ih => simp [tailOutputs, ih]

theorem tailOutputs_getD (h : Int → Int) (b : Int) :
    ∀ (l : List Int) (i : Nat), i < l.length →
      (tailOutputs h b l).getD i 0 = h ((l.drop i).sum + b) := by
  intro l
  induction l with
  | nil => intro i hi; simp at hi
  | cons x xs ih =>
      intro i hi
      cases i with
      | zero => simp [tailOutputs]
      | succ i =>
          simp only [tailOutputs, List.getD_cons_succ, List.drop_succ_cons]
          exact ih i (by simpa using Nat.lt_of_succ_lt_succ hi)

theorem tailOutputs_concat (h : Int → Int) :
    ∀ (u : List Int) (z b : Int),
      tailOutputs h b (u ++ [z]) = tailOutputs h (z + b) u ++ [h (z + b)] := by
  intro u
  induction u with
  | nil => intro z b; simp [tailOutputs]
  | cons x u' ih =>
      intro z b
      have harg : x + (u' ++ [z]).sum + b = x + u'.sum + (z + b) := by
        simp [List.sum_append]; ring
      rw [List.cons_append]
      simp only [tailOutputs, harg, ih, List.cons_append, List.nil_append]

theorem mem_tailOutputs (h : Int → Int) :
    ∀ (l : List Int) (b : Int) (y : Int), y ∈ tailOutputs h b l → ∃ t, y = h t := by
  intro l
  induction l with
  | nil => intro b y hy; simp [tailOutputs] at hy
  | cons x xs ih =>
      intro b y hy
      simp only [tailOutputs, List.mem_cons] at hy
      rcases hy with rfl | hy
      · exact ⟨x + xs.sum + b, rfl⟩
      · exact ih b y hy

theorem ext_getD :
    ∀ u v : List Int, u.length = v.length →
      (∀ j, j < u.length → u.getD j 0 = v.getD j 0) → u = v := by
  intro u
  induction u with
  | nil =>
      intro v hl _
      cases v with
      | nil => rfl
      | cons y v' => simp at hl
  | cons x u' ih =>
      intro v hl hj
      cases v with
      | nil => simp at hl
      | cons y v' =>
          have h0 := hj 0 (by simp)
          simp only [List.getD_cons_zero] at h0
          have hrest : u' = v' := by
            refine ih v' (by simpa using hl) ?_
            intro j hjlt
            have := hj (j + 1) (by simpa using Nat.succ_lt_succ hjlt)
            simpa [List.getD_cons_succ] using this
          rw [h0, hrest]

theorem fA_bounds (t : Int) : 1 ≤ fA t ∧ fA t ≤ 26 := by
  unfold fA; omega

theorem fB_bounds (t : Int) : 1 ≤ fB t ∧ fB t ≤ 26 := by
  unfold fB; omega

/-! ### Python ranges -/

theorem intRangeStep_singleton (a b : Int) (h1 : a < b) (h2 : b ≤ a + 26) :
    intRangeStep a b 26 = [a] := by
  unfold intRangeStep
  have hq : (b - a + 26 - 1) / 26 = 1 := by omega
  rw [hq]
  norm_num [List.range_succ]

theorem mem_intRangeStep_one (a b x : Int) :
    x ∈ intRangeStep a b 1 ↔ a ≤ x ∧ x < b := by
  unfold intRangeStep
  simp only [List.mem_map, List.mem_range]
  constructor
  · rintro ⟨k, hk, rfl⟩
    omega
  · intro hx
    exact ⟨(x - a).toNat, by omega, by omega⟩

theorem intRangeStep_nodup (a b step : Int) (hstep : 0 < step) :
    (intRangeStep a b step).Nodup := by
  unfold intRangeStep
  refine (List.nodup_range _).map ?_
  intro k1 k2 hkk
  have h1 : step * (k1 : Int) = step * (k2 : Int) := add_left_cancel hkk
  have h2 : (k1 : Int) = (k2 : Int) := mul_left_cancel₀ (ne_of_gt hstep) h1
  exact_mod_cast h2

/-! ### Interpretation A: the inverter -/

theorem reconA_go_spec :
    ∀ (ys : List Int) (Tnext : Int) (acc : List Int),
      (∀ y ∈ ys, 1 ≤ y ∧ y ≤ 26) →
      ∃ x', reconA_go ys Tnext acc = some (x' ++ acc) ∧
        x'.length = ys.length ∧
        (∀ e ∈ x', 1 ≤ e ∧ e ≤ 26) ∧
        tailOutputs fA Tnext x' = ys.reverse := by
  intro ys
  induction ys with
  | nil =>
      intro Tnext acc _
      exact ⟨[], by simp [reconA_go], by simp, by simp, by simp [tailOutputs]⟩
  | cons yi ys' ih =>
      intro Tnext acc hb
      have hyi : 1 ≤ yi ∧ yi ≤ 26 := hb yi (List.mem_cons_self _ _)
      have hbys' : ∀ y ∈ ys', 1 ≤ y ∧ y ≤ 26 := fun y hy => hb y (List.mem_cons_of_mem _ hy)
      simp only [reconA_go]
      set r0 : Int := if (yi - 6) % 26 = 0 then 26 else (yi - 6) % 26 with hr0def
      set start : Int := Tnext + 1 + ((r0 - (Tnext + 1)) % 26) with hstartdef
      have hr0 : r0 % 26 = (yi - 6) % 26 ∧ 1 ≤ r0 ∧ r0 ≤ 26 := by
        rw [hr0def]; split_ifs with h
        · omega
        · omega
      have hmod : 0 ≤ (r0 - (Tnext + 1)) % 26 ∧ (r0 - (Tnext + 1)) % 26 < 26 :=
        ⟨Int.emod_nonneg _ (by norm_num), Int.emod_lt_of_pos _ (by norm_num)⟩
      have hwin : Tnext + 1 ≤ start ∧ start ≤ Tnext + 26 := by omega
      have hsing : intRangeStep start (Tnext + 26 + 1) 26 = [start] :=
        intRangeStep_singleton _ _ (by omega) (by omega)
      rw [hsing]
      have hfa : fA start = yi := by unfold fA; omega
      have hxi : 1 ≤ start - Tnext ∧ start - Tnext ≤ 26 := by omega
      have hc1 : ¬(([start] : List Int).length ≠ 1) := by simp
      rw [if_neg hc1]
      have hc2 : ¬¬(1 ≤ ([start] : List Int).headD 0 - Tnext ∧
          ([start] : List Int).headD 0 - Tnext ≤ 26) := by
        simp only [List.headD_cons]; exact not_not_intro hxi
      rw [if_neg hc2]
      simp only [List.headD_cons]
      obtain ⟨x'', h1, h2, h3, h4⟩ := ih start ((start - Tnext) :: acc) hbys'
      refine ⟨x'' ++ [start - Tnext], ?_, ?_, ?_, ?_⟩
      · rw [h1]; simp [List.append_assoc]
      · simp [h2]
      · intro e he
        rcases List.mem_append.mp he with hmem | hmem
        · exact h3 e hmem
        · have : e = start - Tnext := by simpa using hmem
          omega
      · rw [tailOutputs_concat]
        have hst : start - Tnext + Tnext = start := by omega
        rw [hst, h4, hfa, List.reverse_cons]

theorem reconA_some (target : List Int) (hne : target ≠ [])
    (hb : ∀ y ∈ target, 1 ≤ y ∧ y ≤ 26) :
    ∃ x, reconstruct_interpretation_A target = some x ∧
      x.length = target.length ∧ (∀ e ∈ x, 1 ≤ e ∧ e ≤ 26) ∧
      map_interpretation_A_tail_plus6_mod26 x = target := by
  have hLmem : target.getLast hne ∈ target := List.getLast_mem hne
  have hLb := hb _ hLmem
  have hL? : target.getLast? = some (target.getLast hne) := List.getLast?_eq_getLast _ _
  simp only [reconstruct_interpretation_A, hL?, Option.getD_some]
  set L : Int := target.getLast hne with hLdef
  set Tn : Int := if (L - 6) % 26 ≠ 0 then (L - 6) % 26 else 26 with hTndef
  have hTnb : 1 ≤ Tn ∧ Tn ≤ 26 := by rw [hTndef]; split_ifs with h <;> omega
  have hfaTn : fA Tn = L := by
    rw [hTndef]; unfold fA; split_ifs with h <;> omega
  rw [if_neg (not_not_intro hTnb)]
  have hbDL : ∀ y ∈ target.dropLast.reverse, 1 ≤ y ∧ y ≤ 26 := by
    intro y hy
    exact hb y (List.dropLast_subset _ (List.mem_reverse.mp hy))
  obtain ⟨x', heq, hlen, hbx, hout⟩ := reconA_go_spec target.dropLast.reverse Tn [Tn] hbDL
  rw [List.reverse_reverse] at hout
  have hpos : 0 < target.length := List.length_pos.mpr hne
  refine ⟨x' ++ [Tn], by rw [heq], ?_, ?_, ?_⟩
  · have hdl : target.dropLast.length = target.length - 1 := List.length_dropLast _
    simp only [List.length_append, List.length_cons, List.length_nil, hlen,
      List.length_reverse, hdl]
    omega
  · intro e he
    rcases List.mem_append.mp he with hmem | hmem
    · exact hbx e hmem
    · have : e = Tn := by simpa using hmem
      omega
  · rw [map_A_eq_tailOutputs, tailOutputs_concat, add_zero, hout, hfaTn]
    exact List.dropLast_append_getLast hne

/-- C4: on a nonempty target with all entries in `[1,26]`, the interpretation-A
reconstruction never returns `None`: the last tail sum is always in `[1,26]`,
every window scan finds exactly one candidate, and every derived value lies in
`[1,26]`, so all three `None` branches are unreachable. -/
theorem C4_reconstruct_A_never_none (target : List Int) (hne : target ≠ [])
    (hb : ∀ y ∈ target, 1 ≤ y ∧ y ≤ 26) :
    reconstruct_interpretation_A target ≠ none := by
  obtain ⟨x, hx, -, -, -⟩ := reconA_some target hne hb
  simp [hx]

theorem C4_witness :
    (([7] : List Int) ≠ [] ∧ ∀ y ∈ ([7] : List Int), 1 ≤ y ∧ y ≤ 26) ∧
    reconstruct_interpretation_A [7] ≠ none :=
  ⟨⟨by decide, by decide⟩, C4_reconstruct_A_never_none [7] (by decide) (by decide)⟩

/-- C3: whenever interpretation-A reconstruction of a nonempty target with
entries in `[1,26]` returns a value sequence `x`, the interpretation-A forward
transform maps `x` back to exactly that target. -/
theorem C3_reconstruct_A_sound (target x : List Int) (hne : target ≠ [])
    (hb : ∀ y ∈ target, 1 ≤ y ∧ y ≤ 26)
    (hx : reconstruct_interpretation_A target = some x) :
    map_interpretation_A_tail_plus6_mod26 x = target := by
  obtain ⟨x0, hx0, -, -, hmap⟩ := reconA_some target hne hb
  have hxx : x0 = x := Option.some.inj (hx0.symm.trans hx)
  exact hxx ▸ hmap

theorem C3_witness :
    (([7] : List Int) ≠ [] ∧ reconstruct_interpretation_A [7] = some [1]) ∧
    map_interpretation_A_tail_plus6_mod26 [1] = [7] :=
  ⟨⟨by decide, by decide⟩, C3_reconstruct_A_sound [7] [1] (by decide) (by decide) (by decide)⟩

/-! ### C5, C10: the forward transforms -/

/-- C5: for every value sequence `v`, each forward transform returns a list of
the same length whose `i`-th element (left to right) is
`((reducer(T_i) + 6 - 1) % 26) + 1` for the suffix sum `T_i` of `v` from `i`
(identity reducer for interpretation A, decimal digit sum for interpretation
B); every output element lies in `[1,26]` and the output order follows the
input order. -/
theorem C5_forward_transforms (v : List Int) (hbv : ∀ x ∈ v, 1 ≤ x ∧ x ≤ 26) :
    (map_interpretation_A_tail_plus6_mod26 v).length = v.length ∧
    (map_interpretation_B v).length = v.length ∧
    (∀ i, i < v.length →
      (map_interpretation_A_tail_plus6_mod26 v).getD i 0 =
        (((v.drop i).sum + 6 - 1) % 26) + 1 ∧
      (map_interpretation_B v).getD i 0 =
        ((digit_sum ((v.drop i).sum) + 6 - 1) % 26) + 1) ∧
    (∀ y ∈ map_interpretation_A_tail_plus6_mod26 v, 1 ≤ y ∧ y ≤ 26) ∧
    (∀ y ∈ map_interpretation_B v, 1 ≤ y ∧ y ≤ 26) := by
  refine ⟨?_, ?_, ?_, ?_, ?_⟩
  · rw [map_A_eq_tailOutputs]; exact tailOutputs_length _ _ v
  · rw [map_B_eq_tailOutputs]; exact tailOutputs_length _ _ v
  · intro i hi
    constructor
    · rw [map_A_eq_tailOutputs, tailOutputs_getD _ _ _ _ hi, add_zero]; rfl
    · rw [map_B_eq_tailOutputs, tailOutputs_getD _ _ _ _ hi, add_zero]; rfl
  · intro y hy
    rw [map_A_eq_tailOutputs] at hy
    obtain ⟨t, rfl⟩ := mem_tailOutputs _ _ _ _ hy
    exact fA_bounds t
  · intro y hy
    rw [map_B_eq_tailOutputs] at hy
    obtain ⟨t, rfl⟩ := mem_tailOutputs _ _ _ _ hy
    exact fB_bounds t

theorem C5_witness :
    (∀ x ∈ ([1, 2] : List Int), 1 ≤ x ∧ x ≤ 26) ∧
    ((map_interpretation_A_tail_plus6_mod26 [1, 2]).length = ([1, 2] : List Int).length ∧
     (map_interpretation_B [1, 2]).length = ([1, 2] : List Int).length ∧
     (∀ i, i < ([1, 2] : List Int).length →
       (map_interpretation_A_tail_plus6_mod26 [1, 2]).getD i 0 =
         (((([1, 2] : List Int).drop i).sum + 6 - 1) % 26) + 1 ∧
       (map_interpretation_B [1, 2]).getD i 0 =
         ((digit_sum ((([1, 2] : List Int).drop i).sum) + 6 - 1) % 26) + 1) ∧
     (∀ y ∈ map_interpretation_A_tail_plus6_mod26 [1, 2], 1 ≤ y ∧ y ≤ 26) ∧
     (∀ y ∈ map_interpretation_B [1, 2], 1 ≤ y ∧ y ≤ 26)) :=
  ⟨by decide, C5_forward_transforms [1, 2] (by decide)⟩

/-- C10: the single-letter word "A" (value sequence `[1]`) forward-maps under
interpretation A to value `7`, the word "G"; and reconstructing the target
`[7]` under interpretation A returns `[1]`, the word "A". -/
theorem C10_single_letter_boundary :
    from_word ['A'] = some [1] ∧
    map_interpretation_A_tail_plus6_mod26 [1] = [7] ∧
    to_word [7] = some ['G'] ∧
    reconstruct_interpretation_A [7] = some [1] ∧
    to_word [1] = some ['A'] :=
  ⟨by decide, by decide, by decide, by decide, by decide⟩

/-! ### The alphabet codec -/

theorem lookupIdx_isSome :
    ∀ (l : List Char) (c : Char) (i : Int), (lookupIdx l c i).isSome = true ↔ c ∈ l := by
  intro l
  induction l with
  | nil => intro c i; simp [lookupIdx]
  | cons a as ih =>
      intro c i
      simp only [lookupIdx]
      split_ifs with h
      · simp only [Option.isSome_some, true_iff]
        exact h ▸ List.mem_cons_self a as
      · rw [ih c (i + 1)]
        constructor
        · exact fun hm => List.mem_cons_of_mem _ hm
        · intro hm
          rcases List.mem_cons.mp hm with rfl | hm
          · exact absurd rfl h
          · exact hm

theorem val_isSome (c : Char) : (val c).isSome = true ↔ c ∈ alphabet :=
  lookupIdx_isSome alphabet c 0

theorem lookupIdx_bounds :
    ∀ (l : List Char) (c : Char) (i k : Int), lookupIdx l c i = some k →
      i + 1 ≤ k ∧ k ≤ i + l.length := by
  intro l
  induction l with
  | nil => intro c i k h; simp [lookupIdx] at h
  | cons a as ih =>
      intro c i k h
      simp only [lookupIdx] at h
      split_ifs at h with hac
      · have hk : i + 1 = k := Option.some.inj h
        simp only [List.length_cons]
        push_cast
        omega
      · have := ih c (i + 1) k h
        simp only [List.length_cons]
        push_cast
        omega

theorem val_bounds (c : Char) (k : Int) (h : val c = some k) : 1 ≤ k ∧ k ≤ 26 := by
  have hb := lookupIdx_bounds alphabet c 0 k h
  have hlen : alphabet.length = 26 := by decide
  rw [hlen] at hb
  push_cast at hb
  omega

theorem letter_isSome (v : Int) : (letter v).isSome = true ↔ 1 ≤ v ∧ v ≤ 26 := by
  unfold letter
  split_ifs with h <;> simp [h]

theorem from_word_spec :
    ∀ w : List Char, (∀ c ∈ w, c ∈ alphabet) →
      ∃ v, from_word w = some v ∧ v.length = w.length ∧ ∀ e ∈ v, 1 ≤ e ∧ e ≤ 26 := by
  intro w
  induction w with
  | nil => intro _; exact ⟨[], rfl, rfl, by simp⟩
  | cons c cs ih =>
      intro hall
      have hc : c ∈ alphabet := hall c (List.mem_cons_self _ _)
      obtain ⟨k, hk⟩ := Option.isSome_iff_exists.mp ((val_isSome c).mpr hc)
      obtain ⟨v, hv1, hv2, hv3⟩ := ih (fun x hx => hall x (List.mem_cons_of_mem _ hx))
      refine ⟨k :: v, by simp [from_word, hk, hv1], by simp [hv2], ?_⟩
      intro e he
      rcases List.mem_cons.mp he with rfl | he
      · exact val_bounds c e hk
      · exact hv3 e he

theorem from_word_isSome :
    ∀ w : List Char, (from_word w).isSome = true ↔ ∀ c ∈ w, c ∈ alphabet := by
  intro w
  induction w with
  | nil => simp [from_word]
  | cons c cs ih =>
      rw [List.forall_mem_cons, ← ih, ← val_isSome]
      simp only [from_word]
      cases val c <;> cases from_word cs <;> simp

theorem from_word_bounds :
    ∀ (w : List Char) (v : List Int), from_word w = some v → ∀ e ∈ v, 1 ≤ e ∧ e ≤ 26 := by
  intro w
  induction w with
  | nil =>
      intro v h e he
      simp only [from_word, Option.some.injEq] at h
      subst h
      simp at he
  | cons c cs ih =>
      intro v h e he
      simp only [from_word] at h
      cases hval : val c with
      | none => rw [hval] at h; simp at h
      | some k =>
          rw [hval] at h
          cases hrest : from_word cs with
          | none => rw [hrest] at h; simp at h
          | some vs =>
              rw [hrest] at h
              have h' : (k :: vs : List Int) = v := by simpa using h
              subst h'
              rcases List.mem_cons.mp he with rfl | he
              · exact val_bounds c e hval
              · exact ih vs hrest e he

theorem from_word_append_bad (w₁ : List Char) (c : Char) (w₂ : List Char)
    (hc : c ∉ alphabet) : from_word (w₁ ++ c :: w₂) = none := by
  induction w₁ with
  | nil =>
      have hval : val c = none := by
        cases hval : val c with
        | none => rfl
        | some k => exact absurd ((val_isSome c).mp (by simp [hval])) hc
      simp [from_word, hval]
  | cons a w ih =>
      simp only [List.cons_append, from_word]
      cases val a <;> simp [ih]

theorem to_word_isSome :
    ∀ v : List Int, (to_word v).isSome = true ↔ ∀ x ∈ v, 1 ≤ x ∧ x ≤ 26 := by
  intro v
  induction v with
  | nil => simp [to_word]
  | cons x xs ih =>
      rw [List.forall_mem_cons, ← ih, ← letter_isSome]
      simp only [to_word]
      cases letter x <;> cases to_word xs <;> simp

/-- C9: `from_word` succeeds exactly on words all of whose characters are in
the 26-letter alphabet, yielding values in `[1,26]`; a single unrecognised
character anywhere makes the whole lookup fail; and `to_word` succeeds exactly
on sequences all of whose entries are in `[1,26]`. -/
theorem C9_codec_domains :
    (∀ w : List Char, (from_word w).isSome = true ↔ ∀ c ∈ w, c ∈ alphabet) ∧
    (∀ (w : List Char) (v : List Int), from_word w = some v → ∀ e ∈ v, 1 ≤ e ∧ e ≤ 26) ∧
    (∀ (w₁ : List Char) (c : Char) (w₂ : List Char), c ∉ alphabet →
      from_word (w₁ ++ c :: w₂) = none) ∧
    (∀ v : List Int, (to_word v).isSome = true ↔ ∀ x ∈ v, 1 ≤ x ∧ x ≤ 26) :=
  ⟨from_word_isSome, from_word_bounds, from_word_append_bad, to_word_isSome⟩

theorem C9_witness :
    ('?' ∉ alphabet) ∧ from_word (['A'] ++ '?' :: []) = none :=
  ⟨by decide, C9_codec_domains.2.2.1 ['A'] '?' [] (by decide)⟩

/-- C7: for every word over the 26-letter alphabet, converting to values and
back to letters is the identity. -/
theorem C7_codec_roundtrip (w : List Char) (hw : ∀ c ∈ w, c ∈ alphabet) :
    ∃ v, from_word w = some v ∧ to_word v = some w := by
  induction w with
  | nil => exact ⟨[], rfl, rfl⟩
  | cons c cs ih =>
      have hc : c ∈ alphabet := hw c (List.mem_cons_self _ _)
      obtain ⟨v, hv1, hv2⟩ := ih (fun x hx => hw x (List.mem_cons_of_mem _ hx))
      have hall : ∀ a ∈ alphabet, (val a).bind letter = some a := by decide
      have hchar := hall c hc
      cases hk : val c with
      | none => rw [hk] at hchar; simp at hchar
      | some k =>
          rw [hk] at hchar
          simp only [Option.some_bind] at hchar
          exact ⟨k :: v, by simp [from_word, hk, hv1], by simp [to_word, hchar, hv2]⟩

theorem C7_witness :
    (∀ c ∈ (['A', 'B'] : List Char), c ∈ alphabet) ∧
    (∃ v, from_word ['A', 'B'] = some v ∧ to_word v = some ['A', 'B']) :=
  ⟨by decide, C7_codec_roundtrip ['A', 'B'] (by decide)⟩

/-! ### C2: interpretation A recovers a word from its own forward image -/

theorem tailOutputs_fA_inj :
    ∀ (u v : List Int) (b : Int),
      (∀ e ∈ u, 1 ≤ e ∧ e ≤ 26) → (∀ e ∈ v, 1 ≤ e ∧ e ≤ 26) →
      tailOutputs fA b u = tailOutputs fA b v → u = v := by
  intro u
  induction u using List.reverseRecOn with
  | nil =>
      intro v b _ _ heq
      rcases List.eq_nil_or_concat v with rfl | ⟨v', z, rfl⟩
      · rfl
      · exfalso
        have hl := congrArg List.length heq
        simp [tailOutputs_length] at hl
  | append_singleton u' a ih =>
      intro v b hu hv heq
      rcases List.eq_nil_or_concat v with rfl | ⟨v', z, rfl⟩
      · exfalso
        have hl := congrArg List.length heq
        simp [tailOutputs_length] at hl
      · rw [List.concat_eq_append] at hv heq ⊢
        rw [tailOutputs_concat, tailOutputs_concat] at heq
        have hlen : (tailOutputs fA (a + b) u').length = (tailOutputs fA (z + b) v').length := by
          have hl := congrArg List.length heq
          simp only [List.length_append, List.length_cons, List.length_nil,
            tailOutputs_length] at hl ⊢
          omega
        obtain ⟨h1, h2⟩ := List.append_inj heq hlen
        have hfa : fA (a + b) = fA (z + b) := by simpa using h2
        have ha : 1 ≤ a ∧ a ≤ 26 := hu a (by simp)
        have hz : 1 ≤ z ∧ z ≤ 26 := hv z (by simp)
        have haz : a = z := by unfold fA at hfa; omega
        subst haz
        have hrest : u' = v' :=
          ih v' (a + b) (fun e he => hu e (by simp [he])) (fun e he => hv e (by simp [he])) h1
        rw [hrest]

/-- C2: for every nonempty word over the alphabet, reconstructing the
interpretation-A forward image of the word recovers the word's value sequence
exactly. -/
theorem C2_forward_backward_consistency (w : List Char) (hne : w ≠ [])
    (hw : ∀ c ∈ w, c ∈ alphabet) :
    ∃ v, from_word w = some v ∧
      reconstruct_interpretation_A (map_interpretation_A_tail_plus6_mod26 v) = some v := by
  obtain ⟨v, hv, hlen, hb⟩ := from_word_spec w hw
  have hvne : v ≠ [] := by
    intro h
    rw [h] at hlen
    simp only [List.length_nil] at hlen
    exact hne (List.length_eq_zero.mp hlen.symm)
  have htne : map_interpretation_A_tail_plus6_mod26 v ≠ [] := by
    rw [map_A_eq_tailOutputs]
    intro h
    have hl := congrArg List.length h
    rw [tailOutputs_length] at hl
    exact hvne (List.length_eq_zero.mp hl)
  have htb : ∀ y ∈ map_interpretation_A_tail_plus6_mod26 v, 1 ≤ y ∧ y ≤ 26 := by
    intro y hy
    rw [map_A_eq_tailOutputs] at hy
    obtain ⟨t, rfl⟩ := mem_tailOutputs _ _ _ _ hy
    exact fA_bounds t
  obtain ⟨x, hx, hxlen, hxb, hxmap⟩ := reconA_some _ htne htb
  have hxv : x = v := by
    rw [map_A_eq_tailOutputs, map_A_eq_tailOutputs] at hxmap
    exact tailOutputs_fA_inj x v 0 hxb hb hxmap
  exact ⟨v, hv, by rw [hx, hxv]⟩

theorem C2_witness :
    ((['A'] : List Char) ≠ [] ∧ ∀ c ∈ (['A'] : List Char), c ∈ alphabet) ∧
    (∃ v, from_word ['A'] = some v ∧
      reconstruct_interpretation_A (map_interpretation_A_tail_plus6_mod26 v) = some v) :=
  ⟨⟨by decide, by decide⟩, C2_forward_backward_consistency ['A'] (by decide) (by decide)⟩

/-! ### Interpretation B: search-engine machinery -/

theorem getD_append_left (l1 l2 : List Int) (n : Nat) (h : n < l1.length) :
    (l1 ++ l2).getD n 0 = l1.getD n 0 := by
  simp [List.getD_eq_getElem?_getD, List.getElem?_append_left h]

theorem getD_concat_length (l : List Int) (a : Int) : (l ++ [a]).getD l.length 0 = a := by
  simp [List.getD_eq_getElem?_getD]

theorem getD_mem_of_lt (l : List Int) (j : Nat) (h : j < l.length) : l.getD j 0 ∈ l := by
  rw [List.getD_eq_getElem l 0 h]
  exact List.getElem_mem h

theorem getLastD_eq_getD (l : List Int) (h : 0 < l.length) :
    l.getLast?.getD 0 = l.getD (l.length - 1) 0 := by
  induction l with
  | nil => simp at h
  | cons a l' ih =>
      cases l' with
      | nil => simp
      | cons b l'' =>
          rw [List.getLast?_cons_cons]
          rw [ih (by simp)]
          simp only [List.length_cons, Nat.add_sub_cancel, List.getD_cons_succ]

theorem append_singleton_injective (d : List Int) :
    Function.Injective (fun v : List Int => v ++ d) := by
  intro u v h
  simp only at h
  have hlen : u.length = v.length := by
    have hl := congrArg List.length h
    simp only [List.length_append] at hl
    omega
  exact (List.append_inj h hlen).1

theorem foldl_state_inv {α : Type}
    (f : (List Int × List (List Int)) → α → (List Int × List (List Int)))
    (g : α → List (List Int)) (acc : List Int)
    (hf : ∀ s x, s.1 = acc → f s x = (acc, s.2 ++ g x)) :
    ∀ (l : List α) (sols : List (List Int)),
      l.foldl f (acc, sols) = (acc, sols ++ l.flatMap g) := by
  intro l
  induction l with
  | nil => intro sols; simp
  | cons x l' ih =>
      intro sols
      rw [List.foldl_cons, hf (acc, sols) x rfl, ih, List.flatMap_cons, List.append_assoc]

theorem backtrackB_st_eq (target : List Int) :
    ∀ (k : Nat) (T_next : Int) (acc : List Int) (sols : List (List Int)),
      backtrackB_st target k T_next acc sols =
        (acc, sols ++ backtrackB target k T_next acc) := by
  intro k
  induction k with
  | zero => intro T acc sols; simp [backtrackB_st, backtrackB]
  | succ k ih =>
      intro T acc sols
      simp only [backtrackB_st, backtrackB]
      refine foldl_state_inv _ _ acc ?_ _ _
      intro s x hs1
      split_ifs with h1 h2
      · rw [hs1, ih x (acc ++ [x - T]) s.2]
        simp [List.dropLast_concat]
      · obtain ⟨s1, s2⟩ := s
        simp only at hs1
        rw [hs1, List.append_nil]
      · obtain ⟨s1, s2⟩ := s
        simp only at hs1
        rw [hs1, List.append_nil]

theorem foldl_solutions (target : List Int) (m : Nat) :
    ∀ (l : List Int) (sols : List (List Int)),
      l.foldl (fun sols Tn => (backtrackB_st target m Tn [Tn] sols).2) sols
        = sols ++ l.flatMap (fun Tn => backtrackB target m Tn [Tn]) := by
  intro l
  induction l with
  | nil => intro sols; simp
  | cons x l' ih =>
      intro sols
      rw [List.foldl_cons]
      have h2 : (backtrackB_st target m x [x] sols).2 = sols ++ backtrackB target m x [x] := by
        rw [backtrackB_st_eq]
      rw [h2, ih, List.flatMap_cons, List.append_assoc]

theorem reconstruct_B_eq (target : List Int) :
    reconstruct_interpretation_B_all target =
      ((intRangeStep 1 (26 + 1) 1).filter
          (fun t => fB t = target.getLast?.getD 0)).flatMap
        (fun Tn => backtrackB target (target.length - 1) Tn [Tn]) := by
  simp only [reconstruct_interpretation_B_all]
  rw [foldl_solutions target (target.length - 1), List.nil_append]

theorem backtrackB_shift (target : List Int) :
    ∀ (k : Nat) (b : Int) (acc : List Int),
      backtrackB target k b acc
        = (backtrackB target k b []).map (fun v => v ++ acc.reverse) := by
  intro k
  induction k with
  | zero => intro b acc; simp [backtrackB]
  | succ k ih =>
      intro b acc
      simp only [backtrackB]
      rw [List.map_flatMap]
      congr 1
      funext Ti
      split_ifs with h1 h2
      · rw [List.nil_append, ih Ti (acc ++ [Ti - b]), ih Ti [Ti - b]]
        simp [List.map_map, Function.comp, List.reverse_append, List.append_assoc]
      · simp
      · simp

theorem backtrackB_mem (target : List Int) :
    ∀ (k : Nat) (b : Int) (s : List Int),
      s ∈ backtrackB target k b [] ↔ s.length = k ∧ suffixOK target b s := by
  intro k
  induction k with
  | zero =>
      intro b s
      simp only [backtrackB, List.reverse_nil, List.mem_singleton]
      constructor
      · rintro rfl
        exact ⟨rfl, fun j hj => absurd hj (by simp)⟩
      · rintro ⟨hl, -⟩
        exact List.length_eq_zero.mp hl
  | succ k ih =>
      intro b s
      simp only [backtrackB]
      rw [List.mem_flatMap]
      constructor
      · rintro ⟨Ti, hTi, hmem⟩
        rw [mem_intRangeStep_one] at hTi
        split_ifs at hmem with h1 h2
        · rw [List.nil_append, backtrackB_shift] at hmem
          simp only [List.reverse_cons, List.reverse_nil, List.nil_append] at hmem
          rw [List.mem_map] at hmem
          obtain ⟨v, hv, rfl⟩ := hmem
          obtain ⟨hvlen, hvok⟩ := (ih Ti v).mp hv
          have hs_len : (v ++ [Ti - b]).length = k + 1 := by simp [hvlen]
          refine ⟨hs_len, ?_⟩
          intro j hj
          rw [hs_len] at hj
          rcases Nat.lt_succ_iff_lt_or_eq.mp hj with hjk | hjk
          · have hjv : j < v.length := by omega
            obtain ⟨hb1, hb2, hfb⟩ := hvok j hjv
            rw [getD_append_left _ _ _ hjv]
            refine ⟨hb1, hb2, ?_⟩
            rw [List.drop_append_of_le_length (by omega : j ≤ v.length), List.sum_append,
              List.sum_cons, List.sum_nil, add_zero]
            have harg : (v.drop j).sum + (Ti - b) + b = (v.drop j).sum + Ti := by omega
            rw [harg]
            exact hfb
          · subst hjk
            have hkv : v.length = j := hvlen
            rw [← hkv, getD_concat_length]
            refine ⟨by omega, by omega, ?_⟩
            rw [List.drop_append_of_le_length (le_refl _), List.drop_length, List.nil_append]
            simp only [List.sum_cons, List.sum_nil, add_zero]
            have harg : Ti - b + b = Ti := by omega
            rw [harg, hkv]
            exact h1
        · simp at hmem
        · simp at hmem
      · rintro ⟨hlen, hok⟩
        have hsne : s ≠ [] := by intro h; rw [h] at hlen; simp at hlen
        obtain ⟨v, x, rfl⟩ : ∃ v x, s = v ++ [x] :=
          ⟨s.dropLast, s.getLast hsne, (List.dropLast_append_getLast hsne).symm⟩
        have hvlen : v.length = k := by
          have hl := hlen
          simp only [List.length_append, List.length_cons, List.length_nil] at hl
          omega
        have hk_lt : k < (v ++ [x]).length := by simp [hvlen]
        obtain ⟨hxb1, hxb2, hxf⟩ := hok k hk_lt
        have hgd : (v ++ [x]).getD k 0 = x := by rw [← hvlen, getD_concat_length]
        rw [hgd] at hxb1 hxb2
        have hdropk : (v ++ [x]).drop k = [x] := by
          rw [← hvlen, List.drop_append_of_le_length (le_refl _), List.drop_length,
            List.nil_append]
        rw [hdropk] at hxf
        simp only [List.sum_cons, List.sum_nil, add_zero] at hxf
        refine ⟨x + b, ?_, ?_⟩
        · rw [mem_intRangeStep_one]; omega
        · rw [if_pos hxf, if_pos (by omega : 1 ≤ x + b - b ∧ x + b - b ≤ 26)]
          have hxx : x + b - b = x := by omega
          rw [hxx, List.nil_append, backtrackB_shift]
          simp only [List.reverse_cons, List.reverse_nil, List.nil_append]
          rw [List.mem_map]
          refine ⟨v, ?_, rfl⟩
          refine (ih (x + b) v).mpr ⟨hvlen, ?_⟩
          intro j hj
          have hjs : j < (v ++ [x]).length := by
            simp only [List.length_append, List.length_cons, List.length_nil]
            omega
          obtain ⟨hb1, hb2, hfb⟩ := hok j hjs
          rw [getD_append_left _ _ _ (by omega : j < v.length)] at hb1 hb2
          refine ⟨hb1, hb2, ?_⟩
          rw [List.drop_append_of_le_length (by omega : j ≤ v.length), List.sum_append,
            List.sum_cons, List.sum_nil, add_zero] at hfb
          have harg : (v.drop j).sum + (x + b) = (v.drop j).sum + x + b := by omega
          rw [harg]
          exact hfb

theorem reconB_mem (target : List Int) (hpos : 0 < target.length) (s : List Int) :
    s ∈ reconstruct_interpretation_B_all target ↔
      (s.length = target.length ∧
       ∀ j, j < s.length →
         1 ≤ s.getD j 0 ∧ s.getD j 0 ≤ 26 ∧
         fB ((s.drop j).sum) = target.getD j 0) := by
  rw [reconstruct_B_eq, List.mem_flatMap]
  constructor
  · rintro ⟨Tn, hTn, hmem⟩
    rw [List.mem_filter] at hTn
    obtain ⟨hTnr, hTnf'⟩ := hTn
    rw [mem_intRangeStep_one] at hTnr
    have hTnf : fB Tn = target.getLast?.getD 0 := by simpa using hTnf'
    rw [backtrackB_shift] at hmem
    simp only [List.reverse_cons, List.reverse_nil, List.nil_append] at hmem
    rw [List.mem_map] at hmem
    obtain ⟨v, hv, rfl⟩ := hmem
    obtain ⟨hvlen, hvok⟩ := (backtrackB_mem target (target.length - 1) Tn v).mp hv
    have hslen : (v ++ [Tn]).length = target.length := by
      simp only [List.length_append, List.length_cons, List.length_nil, hvlen]
      omega
    refine ⟨hslen, ?_⟩
    intro j hj
    rw [hslen] at hj
    by_cases hjv : j < v.length
    · obtain ⟨hb1, hb2, hfb⟩ := hvok j hjv
      rw [getD_append_left _ _ _ hjv]
      refine ⟨hb1, hb2, ?_⟩
      rw [List.drop_append_of_le_length (by omega : j ≤ v.length), List.sum_append,
        List.sum_cons, List.sum_nil, add_zero]
      exact hfb
    · have hjeq : j = v.length := by omega
      subst hjeq
      rw [getD_concat_length]
      refine ⟨by omega, by omega, ?_⟩
      rw [List.drop_append_of_le_length (le_refl _), List.drop_length, List.nil_append]
      simp only [List.sum_cons, List.sum_nil, add_zero]
      rw [hTnf, getLastD_eq_getD target hpos, hvlen]
  · rintro ⟨hlen, hok⟩
    have hsne : s ≠ [] := by
      intro h
      rw [h] at hlen
      simp only [List.length_nil] at hlen
      omega
    obtain ⟨v, x, rfl⟩ : ∃ v x, s = v ++ [x] :=
      ⟨s.dropLast, s.getLast hsne, (List.dropLast_append_getLast hsne).symm⟩
    have hvlen : v.length = target.length - 1 := by
      have hl := hlen
      simp only [List.length_append, List.length_cons, List.length_nil] at hl
      omega
    have hvl : v.length < (v ++ [x]).length := by simp
    obtain ⟨hxb1, hxb2, hxf⟩ := hok v.length hvl
    rw [getD_concat_length] at hxb1 hxb2
    have hdropk : (v ++ [x]).drop v.length = [x] := by
      rw [List.drop_append_of_le_length (le_refl _), List.drop_length, List.nil_append]
    rw [hdropk] at hxf
    simp only [List.sum_cons, List.sum_nil, add_zero] at hxf
    refine ⟨x, ?_, ?_⟩
    · rw [List.mem_filter]
      constructor
      · rw [mem_intRangeStep_one]; omega
      · simp only [decide_eq_true_eq]
        rw [hxf, getLastD_eq_getD target hpos, hvlen]
    · rw [backtrackB_shift]
      simp only [List.reverse_cons, List.reverse_nil, List.nil_append]
      rw [List.mem_map]
      refine ⟨v, ?_, rfl⟩
      refine (backtrackB_mem target (target.length - 1) x v).mpr ⟨hvlen, ?_⟩
      intro j hj
      have hjs : j < (v ++ [x]).length := by
        simp only [List.length_append, List.length_cons, List.length_nil]
        omega
      obtain ⟨hb1, hb2, hfb⟩ := hok j hjs
      rw [getD_append_left _ _ _ (by omega : j < v.length)] at hb1 hb2
      refine ⟨hb1, hb2, ?_⟩
      rw [List.drop_append_of_le_length (by omega : j ≤ v.length), List.sum_append,
        List.sum_cons, List.sum_nil, add_zero] at hfb
      exact hfb

/-- C1: for a nonempty target with entries in `[1,26]` and a same-length value
sequence `s` with entries in `[1,26]`, `s` is among the sequences returned by
the interpretation-B search exactly when the interpretation-B forward
transform maps `s` to the target: the search is sound and complete. -/
theorem C1_search_B_sound_complete (target s : List Int) (hpos : 0 < target.length)
    (htb : ∀ y ∈ target, 1 ≤ y ∧ y ≤ 26) (hsb : ∀ x ∈ s, 1 ≤ x ∧ x ≤ 26)
    (hlen : s.length = target.length) :
    s ∈ reconstruct_interpretation_B_all target ↔ map_interpretation_B s = target := by
  rw [reconB_mem target hpos s, map_B_eq_tailOutputs]
  constructor
  · rintro ⟨hslen, hok⟩
    refine ext_getD _ _ ?_ ?_
    · rw [tailOutputs_length, hslen]
    · intro j hj
      rw [tailOutputs_length] at hj
      rw [tailOutputs_getD _ _ _ _ hj, add_zero]
      exact (hok j hj).2.2
  · intro hmap
    refine ⟨hlen, ?_⟩
    intro j hj
    refine ⟨(hsb _ (getD_mem_of_lt s j hj)).1, (hsb _ (getD_mem_of_lt s j hj)).2, ?_⟩
    rw [← hmap, tailOutputs_getD _ _ _ _ hj, add_zero]

theorem C1_witness :
    (0 < ([7] : List Int).length ∧ (∀ y ∈ ([7] : List Int), 1 ≤ y ∧ y ≤ 26) ∧
      (∀ x ∈ ([1] : List Int), 1 ≤ x ∧ x ≤ 26) ∧
      ([1] : List Int).length = ([7] : List Int).length) ∧
    (([1] : List Int) ∈ reconstruct_interpretation_B_all [7] ↔
      map_interpretation_B [1] = [7]) :=
  ⟨⟨by decide, by decide, by decide, by decide⟩,
    C1_search_B_sound_complete [7] [1] (by decide) (by decide) (by decide) (by decide)⟩

theorem nodup_flatMap_disjoint {α β : Type} :
    ∀ (l : List α) (f : α → List β), l.Nodup → (∀ a ∈ l, (f a).Nodup) →
      (∀ a ∈ l, ∀ b ∈ l, a ≠ b → ∀ x ∈ f a, x ∉ f b) → (l.flatMap f).Nodup := by
  intro l f
  induction l with
  | nil => intro _ _ _; simp
  | cons a l' ih =>
      intro hl hf hdisj
      rw [List.flatMap_cons, List.nodup_append]
      obtain ⟨hal', hl'⟩ := List.nodup_cons.mp hl
      refine ⟨hf a (by simp), ih hl' (fun b hb => hf b (by simp [hb]))
        (fun b hb c hc hbc => hdisj b (by simp [hb]) c (by simp [hc]) hbc), ?_⟩
      intro x hxa hxl'
      rw [List.mem_flatMap] at hxl'
      obtain ⟨b, hb, hxb⟩ := hxl'
      have hab : a ≠ b := fun h => hal' (h ▸ hb)
      exact hdisj a (by simp) b (by simp [hb]) hab x hxa hxb

theorem backtrackB_nodup (target : List Int) :
    ∀ (k : Nat) (b : Int), (backtrackB target k b []).Nodup := by
  intro k
  induction k with
  | zero => intro b; simp [backtrackB]
  | succ k ih =>
      intro b
      simp only [backtrackB]
      have hlast : ∀ Ti x, x ∈ (if fB Ti = target.getD k 0 then
            (if 1 ≤ Ti - b ∧ Ti - b ≤ 26 then backtrackB target k Ti ([] ++ [Ti - b])
             else [])
          else ([] : List (List Int))) → x.getLast? = some (Ti - b) := by
        intro Ti x hx
        split_ifs at hx with h1 h2
        · rw [List.nil_append, backtrackB_shift] at hx
          simp only [List.reverse_cons, List.reverse_nil, List.nil_append] at hx
          rw [List.mem_map] at hx
          obtain ⟨v, -, rfl⟩ := hx
          exact List.getLast?_concat v
        · simp at hx
        · simp at hx
      refine nodup_flatMap_disjoint _ _ (intRangeStep_nodup _ _ _ (by norm_num)) ?_ ?_
      · intro Ti _
        split_ifs with h1 h2
        · rw [List.nil_append, backtrackB_shift]
          simp only [List.reverse_cons, List.reverse_nil, List.nil_append]
          exact (ih Ti).map (append_singleton_injective [Ti - b])
        · simp
        · simp
      · intro Ti hTi Tj hTj hne x hx1 hx2
        have e1 := hlast Ti x hx1
        have e2 := hlast Tj x hx2
        rw [e1] at e2
        have e3 : Ti - b = Tj - b := Option.some.inj e2
        exact hne (by omega : Ti = Tj)

/-- C6: on a nonempty target with entries in `[1,26]`, the list of solutions
returned by the interpretation-B search contains no duplicate sequence. -/
theorem C6_search_B_nodup (target : List Int) (hpos : 0 < target.length)
    (htb : ∀ y ∈ target, 1 ≤ y ∧ y ≤ 26) :
    (reconstruct_interpretation_B_all target).Nodup := by
  rw [reconstruct_B_eq]
  refine nodup_flatMap_disjoint _ _
    ((intRangeStep_nodup 1 (26 + 1) 1 (by norm_num)).filter _) ?_ ?_
  · intro Tn _
    rw [backtrackB_shift]
    simp only [List.reverse_cons, List.reverse_nil, List.nil_append]
    exact (backtrackB_nodup target _ Tn).map (append_singleton_injective [Tn])
  · intro Ti _ Tj _ hne x hx1 hx2
    rw [backtrackB_shift] at hx1 hx2
    simp only [List.reverse_cons, List.reverse_nil, List.nil_append] at hx1 hx2
    rw [List.mem_map] at hx1 hx2
    obtain ⟨v1, -, rfl⟩ := hx1
    obtain ⟨v2, -, h2⟩ := hx2
    have e1 : (v1 ++ [Ti]).getLast? = some Ti := List.getLast?_concat v1
    have e2 : (v2 ++ [Tj]).getLast? = some Tj := List.getLast?_concat v2
    rw [h2, e1] at e2
    exact hne (Option.some.inj e2)

theorem C6_witness :
    (0 < ([7] : List Int).length ∧ ∀ y ∈ ([7] : List Int), 1 ≤ y ∧ y ≤ 26) ∧
    (reconstruct_interpretation_B_all [7]).Nodup :=
  ⟨⟨by decide, by decide⟩, C6_search_B_nodup [7] (by decide) (by decide)⟩

/-- C8: every backtracking call restores the accumulator: whatever the
position, tail sum, accumulator and solution list, the accumulator component
of the state returned by `backtrack` equals the accumulator passed in (each
append is undone by the matching pop before the call returns). -/
theorem C8_accumulator_restored (target : List Int) (k : Nat) (T_next : Int)
    (acc : List Int) (sols : List (List Int)) :
    (backtrackB_st target k T_next acc sols).1 = acc := by
  rw [backtrackB_st_eq]

/-- Faithfulness of the fuelled digit sum: on every natural number it computes
the sum of the base-10 digits. -/
theorem digit_sum_eq_digits_sum (n : Nat) : digit_sum (n : Int) = ((Nat.digits 10 n).sum : Int) := by
  have haux : ∀ fuel m : Nat, m ≤ fuel → digitSumFuel fuel m = (Nat.digits 10 m).sum := by
    intro fuel
    induction fuel with
    | zero =>
        intro m hm
        have : m = 0 := Nat.le_zero.mp hm
        subst this
        simp [digitSumFuel]
    | succ fuel ih =>
        intro m hm
        by_cases h0 : m = 0
        · subst h0; simp [digitSumFuel]
        · have hdig : Nat.digits 10 m = m % 10 :: Nat.digits 10 (m / 10) :=
            Nat.digits_def' (by norm_num) (Nat.pos_of_ne_zero h0)
          rw [hdig]
          simp only [digitSumFuel, h0, if_false, List.sum_cons]
          rw [ih (m / 10) (by omega)]
          omega
  unfold digit_sum
  rw [Int.toNat_natCast, haux n n le_rfl]
